import Mathlib

/-!
# siridb-prompt: the console engine of `main.go`

A shallow embedding of `sendCommand`, `getCompletions`, `initConnect` and the
key dispatch of `main` (all from `src/main.go`), with the properties of the
specification stated and settled against it.

Go strings are byte sequences: `len`, slicing and `strings.HasPrefix` all work
on bytes, so a Go `string` is embedded as the list of its bytes.
-/

set_option maxRecDepth 100000

namespace SiriPrompt

/-! ## Go strings and the `strings` helpers used by `main.go` -/

/-- A Go `string`: its sequence of bytes (each below 256). -/
abbrev GoString := List Nat

/-- A Go `rune`: a code point. -/
abbrev Rune := Nat

/-- Go's UTF-8 encoding of one rune (`utf8.EncodeRune`); surrogates and values
above U+10FFFF are encoded as U+FFFD. -/
def encodeRune (r : Rune) : GoString :=
  if r < 0x80 then [r]
  else if r < 0x800 then [0xC0 + r / 0x40, 0x80 + r % 0x40]
  else if (0xD800 ≤ r ∧ r < 0xE000) ∨ 0x10FFFF < r then [0xEF, 0xBF, 0xBD]
  else if r < 0x10000 then [0xE0 + r / 0x1000, 0x80 + r / 0x40 % 0x40, 0x80 + r % 0x40]
  else [0xF0 + r / 0x40000, 0x80 + r / 0x1000 % 0x40, 0x80 + r / 0x40 % 0x40, 0x80 + r % 0x40]

/-- Go's conversion `string(rs)` of a `[]rune`. -/
def runesToString (rs : List Rune) : GoString :=
  rs.foldr (fun r acc => encodeRune r ++ acc) []

/-- The Go string written as the literal `s` in the source. -/
def str (s : String) : GoString :=
  runesToString (s.toList.map Char.toNat)

/-- The runes for which Go's `unicode.IsSpace` holds. -/
def spaceRunes : List Rune :=
  [0x09, 0x0A, 0x0B, 0x0C, 0x0D, 0x20, 0x85, 0xA0, 0x1680,
   0x2000, 0x2001, 0x2002, 0x2003, 0x2004, 0x2005, 0x2006, 0x2007, 0x2008, 0x2009, 0x200A,
   0x2028, 0x2029, 0x202F, 0x205F, 0x3000]

/-- The byte sequences that decode to a white-space rune. -/
def spaceEncodings : List GoString :=
  spaceRunes.map encodeRune

/-- What is left of `s` after one leading white-space rune, if `s` starts with one. -/
def dropLeadingSpace (s : GoString) : Option GoString :=
  (spaceEncodings.find? (fun e => e.isPrefixOf s)).map (fun e => s.drop e.length)

/-- What is left of the reversed string `s` after one trailing white-space rune. -/
def dropTrailingSpaceRev (s : GoString) : Option GoString :=
  (spaceEncodings.find? (fun e => e.reverse.isPrefixOf s)).map (fun e => s.drop e.length)

/-- Removes leading white-space runes, at most `n` of them. -/
def trimLeftN : Nat → GoString → GoString
  | 0, s => s
  | n + 1, s =>
    match dropLeadingSpace s with
    | some r => trimLeftN n r
    | none => s

/-- Removes trailing white-space runes of a reversed string, at most `n` of them. -/
def trimRightRevN : Nat → GoString → GoString
  | 0, s => s
  | n + 1, s =>
    match dropTrailingSpaceRev s with
    | some r => trimRightRevN n r
    | none => s

/-- Go's `strings.TrimSpace`: all leading and trailing white space, as defined
by Unicode, removed. A white-space rune is recognised by its UTF-8 encoding;
bytes that are not the encoding of one count as no white space, as in Go. The
number of runes to remove is bounded by the number of bytes. -/
def TrimSpace (s : GoString) : GoString :=
  let l := trimLeftN s.length s
  (trimRightRevN l.length l.reverse).reverse

/-- Go's `strings.HasPrefix(s, prefix)`. -/
def HasPrefix (s pre : GoString) : Bool :=
  pre.isPrefixOf s

/-! ## The completion engine -/

/-- The `completion` struct built by `getCompletions`. -/
structure completion where
  text : GoString
  display : GoString
  startPos : Nat
deriving DecidableEq, Repr

/-- Modelled from the spec: the Editor of §3, whose Go file is not part of the
sources at hand: the rune buffer `text`, the cursor index, the current
candidates and the selected one. -/
structure prompt where
  text : List Rune
  cursor : Nat
  completions : List completion
  selected : Option Nat
deriving DecidableEq, Repr

/-- Modelled from the spec: `textBeforeCursor()` of §4.1, the text up to the
cursor as a string. -/
def prompt.textBeforeCursor (p : prompt) : GoString :=
  runesToString (p.text.take p.cursor)

/-- A grammar element as `res.GetExpecting()` reports it: a `*goleri.Keyword`
with its keyword, or an element of another kind. -/
inductive Element where
  | Keyword (keyword : GoString)
  | Other (kind : Nat)
deriving DecidableEq, Repr

/-- The `*goleri.Result` of a parse: `Pos()` and `GetExpecting()`. -/
structure Result where
  Pos : Nat
  GetExpecting : List Element
deriving DecidableEq, Repr

/-- The grammar collaborator `siriGrammar.Parse`: a result, or an error with
its message. -/
abbrev Grammar := GoString → Except GoString Result

/-- The filesystem collaborator `ioutil.ReadDir`: the names of the entries of
a directory in listing order, or an error with its message. -/
abbrev Filesystem := GoString → Except GoString (List GoString)

/-- What a call of `getCompletions` returns and does: the candidates, the log
view (the lines appended to it so far) and the paths handed to `ReadDir`. -/
structure Completing where
  completions : List completion
  logger : List GoString
  readDir : List GoString
deriving DecidableEq, Repr

/-- The exit rule of `getCompletions` (lines 167-174): the candidates it
appends for the trimmed line. -/
def exitRule (trimmed : GoString) : List completion :=
  if trimmed.length < 4 && HasPrefix (str "exit") trimmed then
    [{ text := str "exit", display := str "exit", startPos := trimmed.length }]
  else []

/-- The import rule of `getCompletions` (lines 176-200): the candidates it
appends, and the paths it hands to `ReadDir`. -/
def importRule (ReadDir : Filesystem) (trimmed rest : GoString) :
    List completion × List GoString :=
  if HasPrefix (str "import ") trimmed then
    if trimmed.length ≥ 6 then
      let p := TrimSpace (trimmed.drop 6)
      let p := if p.length = 0 then str "." else p
      match ReadDir p with
      | .ok files =>
        (files.map (fun f => { text := f ++ str " ", display := f, startPos := rest.length }), [p])
      | .error _ => ([], [p])
    else
      ([{ text := str "import ", display := str "import", startPos := trimmed.length }], [])
  else ([], [])

/-- The condition of line 205 under which an expected keyword is offered. -/
def offered (p : prompt) (q rest word : GoString) : Bool :=
  p.text.length == 0
    || (rest.length == 0 && decide (q.length > 0) && q.getLast? == some 0x20)
    || (decide (rest.length > 0) && HasPrefix word rest)

/-- The body of the loop over the expected elements (lines 203-213), appending
to the candidates collected so far. -/
def offerKeyword (p : prompt) (q rest : GoString) (completions : List completion)
    (elem : Element) : List completion :=
  match elem with
  | .Keyword word =>
    if offered p q rest word then
      completions ++ [{ text := word ++ str " ", display := word, startPos := rest.length }]
    else completions
  | .Other _ => completions

/-- The function `getCompletions` of `main.go`; `none` is the runtime panic of
the slice expression `q[res.Pos():]` when the position is out of range. -/
def getCompletions (siriGrammar : Grammar) (ReadDir : Filesystem)
    (logger : List GoString) (p : prompt) : Option Completing :=
  let q := p.textBeforeCursor
  match siriGrammar q with
  | .error err =>
    some { completions := [],
           logger := logger ++ [str "goleri parse error: " ++ err],
           readDir := [] }
  | .ok res =>
    if res.Pos ≤ q.length then
      let rest := q.drop res.Pos
      let trimmed := TrimSpace q
      let completions := exitRule trimmed
      let imp := importRule ReadDir trimmed rest
      let completions := completions ++ imp.1
      let completions := res.GetExpecting.foldl (offerKeyword p q rest) completions
      some { completions := completions, logger := logger, readDir := imp.2 }
    else none

/-! ## Submitting a command and the key dispatch of `main` -/

/-- The log view (`cViewLog`). -/
def cViewLog : Nat := 0

/-- The output view (`cViewOutput`). -/
def cViewOutput : Nat := 1

/-- The keys that `main` dispatches on (`termbox.Key...`); any other key is `Other`. -/
inductive Key where
  | CtrlQ | CtrlL | CtrlJ | Esc | Enter | Pgdn | Pgup | ArrowUp | ArrowDown
  | Other (code : Nat)
deriving DecidableEq, Repr

/-- A key event of termbox: the key and the character typed. -/
structure Event where
  Key : Key
  Ch : Rune
deriving DecidableEq, Repr

/-- The methods that `main.go` calls and whose Go files are not part of the
sources at hand, taken as they come. `H` is the history store, `V` the output
view, `Q` a query and `W` everything else the console touches (log view,
terminal, database client, clipboard, filesystem). -/
structure Methods (H V Q W : Type) where
  /-- The method `his.insert(s)`. -/
  insert : H → GoString → H
  /-- The method `his.prev()`: the recalled line and the moved history. -/
  prev : H → GoString × H
  /-- The method `his.next()`. -/
  next : H → GoString × H
  /-- The constructor `newQuery(s)`. -/
  newQuery : GoString → Q
  /-- The method `q.parse(timeout)`, which sends the query to the database. -/
  queryParse : Q → Nat → W → Q × W
  /-- The width returned by `termbox.Size()`. -/
  width : W → Nat
  /-- The method `outv.append(q, w)`. -/
  outvAppend : V → Q → Nat → V
  /-- The method `outv.pageDown()`. -/
  outvPageDown : V → V
  /-- The method `outv.pageUp()`. -/
  outvPageUp : V → V
  /-- The field `outv.query`, `none` for `nil`. -/
  outvQuery : V → Option Q
  /-- The method `q.json()`. -/
  json : Q → Except GoString GoString
  /-- The call `clipboard.WriteAll(s)`: `none` for a `nil` error. -/
  writeAll : GoString → W → Option GoString × W
  /-- The method `logger.append(msg)`. -/
  loggerAppend : GoString → W → W
  /-- The method `logger.up()`. -/
  loggerUp : W → W
  /-- The method `logger.down()`. -/
  loggerDown : W → W
  /-- The method `logger.pageDown()`. -/
  loggerPageDown : W → W
  /-- The method `logger.pageUp()`. -/
  loggerPageUp : W → W
  /-- The method `outPrompt.deleteAllRunes()`. -/
  deleteAllRunes : prompt → W → prompt × W
  /-- The method `outPrompt.parse(ev)`, the editor's own handling of an event. -/
  promptParse : prompt → Event → W → prompt × W
  /-- The method `outPrompt.setText(s)`. -/
  setText : prompt → GoString → W → prompt × W

/-- Modelled from the spec: `hasCompletions()` of the Editor, whether the list
of current candidates is non-empty. -/
def prompt.hasCompletions (p : prompt) : Bool :=
  !p.completions.isEmpty

/-- Modelled from the spec: `clearCompletions()` of the Editor, which empties
the list of candidates and the selection and leaves the text alone. -/
def prompt.clearCompletions (p : prompt) : prompt :=
  { p with completions := [], selected := none }

/-- The process-wide variables of `main.go` that the key dispatch works on,
with the texts for which a `Query` was created and sent so far. -/
structure Console (H V W : Type) where
  currentView : Nat
  outPrompt : prompt
  his : H
  outv : V
  world : W
  timeout : Nat
  queries : List GoString

variable {H V Q W : Type}

/-- The function `sendCommand` of `main.go`: the return value and the console afterwards. -/
def sendCommand (m : Methods H V Q W) (st : Console H V W) : Nat × Console H V W :=
  let s := TrimSpace (runesToString st.outPrompt.text)
  if s = str "exit" then (1, st)
  else
    let his := m.insert st.his s
    let q := m.newQuery s
    let (q, world) := m.queryParse q st.timeout st.world
    let w := m.width world
    let outv := m.outvAppend st.outv q w
    let (outPrompt, world) := m.deleteAllRunes st.outPrompt world
    (0, { st with his := his, outv := outv, outPrompt := outPrompt, world := world,
                  queries := st.queries ++ [s] })

/-- The function `toClipboard` of `main.go`. -/
def toClipboard (m : Methods H V Q W) (st : Console H V W) : Console H V W :=
  let (err, world) : Option GoString × W :=
    match m.outvQuery st.outv with
    | none => (some (str "nothing to copy"), st.world)
    | some query =>
      match m.json query with
      | .error e => (some e, st.world)
      | .ok s => m.writeAll s st.world
  match err with
  | none =>
    { st with world := m.loggerAppend (str "successfully copied last result to clipboard") world }
  | some e =>
    { st with world := m.loggerAppend (str "cannot copy to clipboard: " ++ e) world }

/-- The `termbox.EventKey` case of the main loop of `main.go`: the console
after the event, and whether the loop is left (`break mainloop`). The redraw
that follows every event changes none of these variables. -/
def keyEvent (m : Methods H V Q W) (ev : Event) (st : Console H V W) : Console H V W × Bool :=
  if st.currentView = cViewLog then
    match ev.Key with
    | .CtrlQ => (st, true)
    | .CtrlL | .Esc => ({ st with currentView := cViewOutput }, false)
    | .ArrowUp => ({ st with world := m.loggerUp st.world }, false)
    | .ArrowDown => ({ st with world := m.loggerDown st.world }, false)
    | .Pgdn => ({ st with world := m.loggerPageDown st.world }, false)
    | .Pgup => ({ st with world := m.loggerPageUp st.world }, false)
    | _ => (st, false)
  else if st.currentView = cViewOutput then
    match ev.Key with
    | .CtrlQ => (st, true)
    | .CtrlL => ({ st with currentView := cViewLog }, false)
    | .CtrlJ => (toClipboard m st, false)
    | .Enter =>
      let r := sendCommand m { st with outPrompt := st.outPrompt.clearCompletions }
      (r.2, r.1 == 1)
    | .Pgdn => ({ st with outv := m.outvPageDown st.outv }, false)
    | .Pgup => ({ st with outv := m.outvPageUp st.outv }, false)
    | .ArrowUp =>
      if st.outPrompt.hasCompletions then
        let r := m.promptParse st.outPrompt ev st.world
        ({ st with outPrompt := r.1, world := r.2 }, false)
      else
        let h := m.prev st.his
        let r := m.setText st.outPrompt h.1 st.world
        ({ st with his := h.2, outPrompt := r.1.clearCompletions, world := r.2 }, false)
    | .ArrowDown =>
      if st.outPrompt.hasCompletions then
        let r := m.promptParse st.outPrompt ev st.world
        ({ st with outPrompt := r.1, world := r.2 }, false)
      else
        let h := m.next st.his
        let r := m.setText st.outPrompt h.1 st.world
        ({ st with his := h.2, outPrompt := r.1.clearCompletions, world := r.2 }, false)
    | _ =>
      let r := m.promptParse st.outPrompt ev st.world
      ({ st with outPrompt := r.1, world := r.2 }, false)
  else (st, false)

/-! ## Reading the time precision at startup -/

/-- A dynamically typed Go value (`interface{}`) as the database client
returns it: `nil`, a `string`, a `[]interface{}`, a `map[string]interface{}`
(its entries, the first entry of a key counting), or a value of another type. -/
inductive Value where
  | nil
  | string (s : GoString)
  | slice (xs : List Value)
  | map (entries : List (GoString × Value))
  | other (kind : Nat)

/-- Indexing a Go map: the value stored under the key, `nil` when there is none. -/
def Value.index (entries : List (GoString × Value)) (key : GoString) : Value :=
  match entries.find? (fun e => e.1 == key) with
  | some e => e.2
  | none => Value.nil

/-- The database client's `Query(text, timeout)`: a value, or an error with its message. -/
abbrev Client := GoString → Nat → Except GoString Value

/-- The variables that `initConnect` writes: the log view (the lines appended
so far) and `timePrecision` (`none` for `nil`). -/
structure Startup where
  logger : List GoString
  timePrecision : Option GoString
deriving DecidableEq, Repr

/-- The function `initConnect` of `main.go`, from the moment the client is
connected; `none` is the runtime panic of a failed type assertion. -/
def initConnect (client : Client) (st : Startup) : Option Startup :=
  match client (str "show time_precision") 10 with
  | .error err =>
    some { st with logger := st.logger ++ [str "error reading time_precision: " ++ err] }
  | .ok res =>
    match res with
    | .map v =>
      match Value.index v (str "data") with
      | .slice arr =>
        if arr.length ≠ 1 then
          some { st with logger := st.logger ++
            [str "error reading time_precision: missing array 'data' or length 1 in map"] }
        else
          match arr.head? with
          | some (.map e) =>
            match Value.index e (str "value") with
            | .string tp =>
              some { logger := st.logger ++
                       [str "finished reading time precision: '" ++ tp ++ str "'"],
                     timePrecision := some tp }
            | _ =>
              some { st with logger := st.logger ++
                [str "error reading time_precision: cannot find time_precision in data"] }
          | _ => none
      | _ =>
        some { st with logger := st.logger ++
          [str "error reading time_precision: missing array 'data' or length 1 in map"] }
    | _ =>
      some { st with logger := st.logger ++ [str "error reading time_precision: missing 'map' in data"] }

/-! ## Concrete inputs used to exercise the definitions -/

/-- An editor holding the text `s` with the cursor at its end and no candidates. -/
def promptOf (s : String) : prompt :=
  { text := s.toList.map Char.toNat, cursor := s.length, completions := [], selected := none }

/-- A grammar that stops at position 0 and expects the first keywords of a
statement, as the SiriDB grammar does on a line it cannot parse. -/
def startGrammar : Grammar := fun _ =>
  .ok { Pos := 0,
        GetExpecting := [.Keyword (str "select"), .Keyword (str "list"), .Other 0,
                         .Keyword (str "show"), .Keyword (str "timeit")] }

/-- A grammar that accepts the whole line and expects `series` or `servers` next. -/
def listGrammar : Grammar := fun q =>
  .ok { Pos := q.length, GetExpecting := [.Keyword (str "series"), .Keyword (str "servers")] }

/-- A grammar that stops at position 5 and expects `series` or `servers`. -/
def listPrefixGrammar : Grammar := fun _ =>
  .ok { Pos := 5, GetExpecting := [.Keyword (str "series"), .Other 3, .Keyword (str "servers")] }

/-- A grammar that expects nothing that is a keyword. -/
def noKeywordGrammar : Grammar := fun _ =>
  .ok { Pos := 0, GetExpecting := [.Other 1, .Other 2] }

/-- A grammar that fails. -/
def failingGrammar : Grammar := fun _ =>
  .error (str "unexpected end of input")

/-- A small directory tree: the working directory holds `data` and `notes.txt`,
and `data` holds `a.csv`; anything else does not exist. -/
def smallTree : Filesystem := fun path =>
  if path = str "." then .ok [str "data", str "notes.txt"]
  else if path = str "data" then .ok [str "a.csv"]
  else .error (str "no such file or directory")

/-- A working directory whose only entry is named `show`. -/
def showTree : Filesystem := fun _ =>
  .ok [str "show"]

/-- A filesystem on which no directory can be read. -/
def unreadable : Filesystem := fun _ =>
  .error (str "permission denied")

/-- A plain in-memory rendering of the methods: the history is the list of
its lines with a cursor, the output view the list of the queries shown, a
query its text, and the rest of the world the lines of the log. -/
def plainMethods : Methods (List GoString × Nat) (List GoString) GoString (List GoString) where
  insert := fun h s => if s = [] then h else (h.1 ++ [s], h.1.length + 1)
  prev := fun h => ((h.1.get? (h.2 - 1)).getD [], (h.1, h.2 - 1))
  next := fun h => ((h.1.get? (h.2 + 1)).getD [], (h.1, min (h.2 + 1) h.1.length))
  newQuery := fun s => s
  queryParse := fun q _ w => (q, w)
  width := fun _ => 80
  outvAppend := fun v q _ => v ++ [q]
  outvPageDown := fun v => v
  outvPageUp := fun v => v
  outvQuery := fun v => v.getLast?
  json := fun q => .ok q
  writeAll := fun _ w => (none, w)
  loggerAppend := fun msg w => w ++ [msg]
  loggerUp := fun w => w
  loggerDown := fun w => w
  loggerPageDown := fun w => w
  loggerPageUp := fun w => w
  deleteAllRunes := fun _ w =>
    ({ text := [], cursor := 0, completions := [], selected := none }, w)
  promptParse := fun p ev w =>
    match ev.Key with
    | .ArrowUp => ({ p with selected := some ((p.selected.getD 0) - 1) }, w)
    | .ArrowDown => ({ p with selected := some ((p.selected.getD 0) + 1) }, w)
    | _ => ({ p with text := p.text ++ [ev.Ch], cursor := p.cursor + 1 }, w)
  setText := fun p s w =>
    ({ p with text := s, cursor := s.length, selected := none }, w)

/-- A console in the output view whose editor holds `s`, with two lines of history. -/
def consoleOf (s : String) : Console (List GoString × Nat) (List GoString) (List GoString) :=
  { currentView := cViewOutput
    outPrompt := promptOf s
    his := ([str "list series", str "show"], 2)
    outv := []
    world := []
    timeout := 60
    queries := [] }

/-- A console in the output view whose editor shows two candidates for `li`. -/
def consoleCompleting : Console (List GoString × Nat) (List GoString) (List GoString) :=
  { consoleOf "li" with
    outPrompt :=
      { promptOf "li" with
        completions := [{ text := str "list ", display := str "list", startPos := 2 },
                        { text := str "limit ", display := str "limit", startPos := 2 }] } }

/-! ## Auxiliary facts -/

/-- The bytes of the literal `exit`. -/
theorem str_exit : str "exit" = [101, 120, 105, 116] := by decide

/-- The bytes of the literal `import`. -/
theorem str_import : str "import" = [105, 109, 112, 111, 114, 116] := by decide

/-- The bytes of the literal `import` followed by a space. -/
theorem str_import_sp : str "import " = [105, 109, 112, 111, 114, 116, 32] := by decide

/-- The byte of a space. -/
theorem str_space : str " " = [32] := by decide

/-- The byte of a dot. -/
theorem str_dot : str "." = [46] := by decide

/-- The loop over the expected elements only appends to what was collected. -/
theorem foldl_offerKeyword (p : prompt) (q rest : GoString) (l : List Element)
    (acc : List completion) :
    l.foldl (offerKeyword p q rest) acc = acc ++ l.foldl (offerKeyword p q rest) [] := by
  induction l generalizing acc with
  | nil => simp
  | cons e l ih =>
    rw [List.foldl_cons, ih, List.foldl_cons, ih (offerKeyword p q rest [] e)]
    cases e with
    | Keyword word =>
      by_cases h : offered p q rest word = true <;> simp [offerKeyword, h]
    | Other k => simp [offerKeyword]

/-- The candidates the loop collects are those of the offered keywords. -/
theorem mem_foldl_offerKeyword (p : prompt) (q rest : GoString) (l : List Element)
    (c : completion) :
    c ∈ l.foldl (offerKeyword p q rest) [] ↔
      ∃ word, Element.Keyword word ∈ l ∧ offered p q rest word = true ∧
        c = { text := word ++ str " ", display := word, startPos := rest.length } := by
  induction l with
  | nil => simp
  | cons e l ih =>
    rw [List.foldl_cons, foldl_offerKeyword, List.mem_append, ih]
    cases e with
    | Keyword w =>
      by_cases h : offered p q rest w = true
      · simp only [offerKeyword, h, if_true, List.nil_append, List.mem_singleton, List.mem_cons,
          List.not_mem_nil, or_false]
        constructor
        · rintro (hc | ⟨word, hm, ho, hc⟩)
          · exact ⟨w, Or.inl rfl, h, hc⟩
          · exact ⟨word, Or.inr hm, ho, hc⟩
        · rintro ⟨word, hm | hm, ho, hc⟩
          · left
            cases hm
            exact hc
          · exact Or.inr ⟨word, hm, ho, hc⟩
      · simp only [offerKeyword, h, List.mem_cons]
        constructor
        · rintro (hc | ⟨word, hm, ho, hc⟩)
          · simp at hc
          · exact ⟨word, Or.inr hm, ho, hc⟩
        · rintro ⟨word, hm | hm, ho, hc⟩
          · cases hm
            exact absurd ho h
          · exact Or.inr ⟨word, hm, ho, hc⟩
    | Other k =>
      simp only [offerKeyword, List.mem_cons]
      constructor
      · rintro (hc | ⟨word, hm, ho, hc⟩)
        · simp at hc
        · exact ⟨word, Or.inr hm, ho, hc⟩
      · rintro ⟨word, hm | hm, ho, hc⟩
        · cases hm
        · exact Or.inr ⟨word, hm, ho, hc⟩

/-- With no keyword among the expected elements the loop collects nothing. -/
theorem foldl_offerKeyword_no_keyword (p : prompt) (q rest : GoString) (l : List Element)
    (h : ∀ word, Element.Keyword word ∉ l) :
    l.foldl (offerKeyword p q rest) [] = [] := by
  apply List.eq_nil_iff_forall_not_mem.mpr
  intro c hc
  obtain ⟨word, hm, _, _⟩ := (mem_foldl_offerKeyword p q rest l c).mp hc
  exact h word hm

/-- What `getCompletions` returns once the parse succeeded with a position inside the line. -/
theorem getCompletions_ok (g : Grammar) (fs : Filesystem) (logger : List GoString) (p : prompt)
    (res : Result) (hparse : g p.textBeforeCursor = .ok res)
    (hpos : res.Pos ≤ p.textBeforeCursor.length) :
    getCompletions g fs logger p = some
      { completions := exitRule (TrimSpace p.textBeforeCursor)
          ++ (importRule fs (TrimSpace p.textBeforeCursor) (p.textBeforeCursor.drop res.Pos)).1
          ++ res.GetExpecting.foldl
              (offerKeyword p p.textBeforeCursor (p.textBeforeCursor.drop res.Pos)) [],
        logger := logger,
        readDir :=
          (importRule fs (TrimSpace p.textBeforeCursor) (p.textBeforeCursor.drop res.Pos)).2 } := by
  simp only [getCompletions, hparse, hpos, if_true]
  rw [foldl_offerKeyword]

/-- The lines on which the exit rule fires. -/
theorem exitRule_eq (t : GoString) :
    exitRule t =
      if t = [] ∨ t = str "e" ∨ t = str "ex" ∨ t = str "exi" then
        [{ text := str "exit", display := str "exit", startPos := t.length }]
      else [] := by
  have e1 : str "e" = [101] := by decide
  have e2 : str "ex" = [101, 120] := by decide
  have e3 : str "exi" = [101, 120, 105] := by decide
  rw [e1, e2, e3]
  unfold exitRule HasPrefix
  rw [str_exit]
  rcases t with _ | ⟨a, _ | ⟨b, _ | ⟨c, _ | ⟨d, t⟩⟩⟩⟩ <;> simp [List.isPrefixOf]


/-- A text that ends in a space is not the keyword `exit`. -/
theorem append_space_ne_exit (w : GoString) : w ++ str " " ≠ str "exit" := by
  intro h
  have h2 := congrArg List.getLast? h
  rw [str_space, str_exit] at h2
  simp at h2

/-- The four ways the import rule can go: it does not apply, it offers the
bare keyword, it lists a directory, or the directory cannot be read. -/
theorem importRule_cases (fs : Filesystem) (t rest : GoString) :
    importRule fs t rest = ([], []) ∨
    (t.length < 6 ∧ importRule fs t rest =
      ([{ text := str "import ", display := str "import", startPos := t.length }], [])) ∨
    (∃ dir files, 6 ≤ t.length ∧ fs dir = .ok files ∧ importRule fs t rest =
      (files.map (fun f => { text := f ++ str " ", display := f, startPos := rest.length }),
        [dir])) ∨
    (∃ dir e, 6 ≤ t.length ∧ fs dir = .error e ∧ importRule fs t rest = ([], [dir])) := by
  by_cases h1 : HasPrefix (str "import ") t = true
  · by_cases h2 : t.length ≥ 6
    · have key : importRule fs t rest =
          (match fs (if (TrimSpace (t.drop 6)).length = 0 then str "." else TrimSpace (t.drop 6)) with
           | .ok files =>
             (files.map (fun f =>
                { text := f ++ str " ", display := f, startPos := rest.length }),
              [if (TrimSpace (t.drop 6)).length = 0 then str "." else TrimSpace (t.drop 6)])
           | .error _ =>
             ([], [if (TrimSpace (t.drop 6)).length = 0 then str "." else TrimSpace (t.drop 6)])) := by
        unfold importRule
        rw [if_pos h1, if_pos h2]
      generalize (if (TrimSpace (List.drop 6 t)).length = 0 then str "."
        else TrimSpace (List.drop 6 t)) = dir at key
      cases hfs : fs dir with
      | ok files =>
        rw [hfs] at key
        exact Or.inr (Or.inr (Or.inl ⟨dir, files, h2, hfs, key⟩))
      | error e =>
        rw [hfs] at key
        exact Or.inr (Or.inr (Or.inr ⟨dir, e, h2, hfs, key⟩))
    · have key : importRule fs t rest =
          ([{ text := str "import ", display := str "import", startPos := t.length }], []) := by
        unfold importRule
        rw [if_pos h1, if_neg h2]
      exact Or.inr (Or.inl ⟨by omega, key⟩)
  · have key : importRule fs t rest = ([], []) := by
      unfold importRule
      rw [if_neg h1]
    exact Or.inl key

/-- Every candidate of the import rule has a text that ends in a space. -/
theorem importRule_text (fs : Filesystem) (t rest : GoString) (c : completion)
    (hc : c ∈ (importRule fs t rest).1) : ∃ w, c.text = w ++ str " " := by
  rcases importRule_cases fs t rest with h | ⟨_, h⟩ | ⟨dir, files, _, _, h⟩ | ⟨dir, e, _, _, h⟩
  · rw [h] at hc
    simp at hc
  · rw [h] at hc
    simp only [List.mem_singleton] at hc
    subst hc
    refine ⟨str "import", ?_⟩
    show str "import " = str "import" ++ str " "
    decide
  · rw [h] at hc
    simp only [List.mem_map] at hc
    obtain ⟨f, _, rfl⟩ := hc
    exact ⟨f, rfl⟩
  · rw [h] at hc
    simp at hc

/-- A line of six bytes or more does not trigger the exit rule. -/
theorem exitRule_long (t : GoString) (h : 6 ≤ t.length) : exitRule t = [] := by
  unfold exitRule
  have : ¬ t.length < 4 := by omega
  simp [this]

/-- A trimmed line that triggers the directory listing is `import`, with or
without a space after it. -/
theorem listing_line (t : GoString) (h1 : HasPrefix (str "import ") t = true)
    (h2 : 6 ≤ t.length) : t = str "import" ∨ t = str "import " := by
  rw [str_import, str_import_sp]
  unfold HasPrefix at h1
  rw [str_import_sp] at h1
  rcases t with _ | ⟨a, _ | ⟨b, _ | ⟨c, _ | ⟨d, _ | ⟨e, _ | ⟨f, _ | ⟨g, _ | ⟨k, t⟩⟩⟩⟩⟩⟩⟩⟩ <;>
    simp [List.isPrefixOf] at h1 h2 ⊢ <;> omega

/-- The directory that the import rule lists is always the working directory. -/
theorem listing_dir (t : GoString) (h1 : HasPrefix (str "import ") t = true)
    (h2 : 6 ≤ t.length) :
    (if (TrimSpace (t.drop 6)).length = 0 then str "." else TrimSpace (t.drop 6)) = str "." := by
  rcases listing_line t h1 h2 with h | h <;> subst h <;> decide

/-- The import rule when it lists. -/
theorem importRule_listing (fs : Filesystem) (t rest : GoString)
    (h1 : HasPrefix (str "import ") t = true) (h2 : 6 ≤ t.length) :
    importRule fs t rest =
      match fs (str ".") with
      | .ok files =>
        (files.map (fun f => { text := f ++ str " ", display := f, startPos := rest.length }),
          [str "."])
      | .error _ => ([], [str "."]) := by
  unfold importRule
  rw [if_pos h1, if_pos h2]
  simp only [listing_dir t h1 h2]

/-- The import rule when it does not list: the filesystem is not consulted. -/
theorem importRule_not_listing (fs fs2 : Filesystem) (t rest : GoString)
    (h : ¬ (HasPrefix (str "import ") t = true ∧ 6 ≤ t.length)) :
    (importRule fs t rest).2 = [] ∧ importRule fs t rest = importRule fs2 t rest := by
  unfold importRule
  by_cases h1 : HasPrefix (str "import ") t = true
  · have h2 : ¬ t.length ≥ 6 := fun h2 => h ⟨h1, h2⟩
    rw [if_pos h1, if_neg h2, if_pos h1, if_neg h2]
    exact ⟨rfl, rfl⟩
  · rw [if_neg h1, if_neg h1]
    exact ⟨rfl, rfl⟩

/-- When a directory was listed, the line triggered the listing and the
directory is the working directory. -/
theorem listing_of_readDir (g : Grammar) (fs : Filesystem) (logger : List GoString) (p : prompt)
    (res : Result) (dir : GoString) (hparse : g p.textBeforeCursor = .ok res)
    (hpos : res.Pos ≤ p.textBeforeCursor.length)
    (hcall : (getCompletions g fs logger p).map Completing.readDir = some [dir]) :
    HasPrefix (str "import ") (TrimSpace p.textBeforeCursor) = true ∧
      6 ≤ (TrimSpace p.textBeforeCursor).length ∧ dir = str "." := by
  rw [getCompletions_ok g fs logger p res hparse hpos] at hcall
  simp only [Option.map_some', Option.some.injEq] at hcall
  by_cases h : HasPrefix (str "import ") (TrimSpace p.textBeforeCursor) = true ∧
      6 ≤ (TrimSpace p.textBeforeCursor).length
  · refine ⟨h.1, h.2, ?_⟩
    rw [importRule_listing fs _ _ h.1 h.2] at hcall
    cases hfs : fs (str ".") with
    | ok files =>
      rw [hfs] at hcall
      simp only [List.cons.injEq, and_true] at hcall
      exact hcall.symm
    | error e =>
      rw [hfs] at hcall
      simp only [List.cons.injEq, and_true] at hcall
      exact hcall.symm
  · rw [(importRule_not_listing fs fs _ _ h).1] at hcall
    simp at hcall

/-- No call of `getCompletions` lists a directory other than the working directory. -/
theorem getCompletions_lists_only_dot (g : Grammar) (fs : Filesystem) (logger : List GoString)
    (p : prompt) (out : Completing) (h : getCompletions g fs logger p = some out) :
    out.readDir = [] ∨ out.readDir = [str "."] := by
  cases hparse : g p.textBeforeCursor with
  | error err =>
    simp only [getCompletions, hparse, Option.some.injEq] at h
    subst h
    exact Or.inl rfl
  | ok res =>
    by_cases hpos : res.Pos ≤ p.textBeforeCursor.length
    · rw [getCompletions_ok g fs logger p res hparse hpos, Option.some.injEq] at h
      subst h
      by_cases hl : HasPrefix (str "import ") (TrimSpace p.textBeforeCursor) = true ∧
          6 ≤ (TrimSpace p.textBeforeCursor).length
      · right
        show (importRule fs _ _).2 = _
        rw [importRule_listing fs _ _ hl.1 hl.2]
        cases fs (str ".") <;> rfl
      · exact Or.inl (importRule_not_listing fs fs _ _ hl).1
    · simp [getCompletions, hparse, hpos] at h

/-- The table of white-space encodings, spelled out. -/
theorem spaceEncodings_eq : spaceEncodings =
    [[9], [10], [11], [12], [13], [32], [194, 133], [194, 160], [225, 154, 128],
     [226, 128, 128], [226, 128, 129], [226, 128, 130], [226, 128, 131], [226, 128, 132],
     [226, 128, 133], [226, 128, 134], [226, 128, 135], [226, 128, 136], [226, 128, 137],
     [226, 128, 138], [226, 128, 168], [226, 128, 169], [226, 128, 175], [226, 129, 159],
     [227, 128, 128]] := by decide

/-- A leading white-space rune is removed. -/
theorem dropLeadingSpace_space (r : Rune) (hr : r ∈ spaceRunes) (s : GoString) :
    dropLeadingSpace (encodeRune r ++ s) = some s := by
  unfold dropLeadingSpace
  rw [spaceEncodings_eq]
  simp only [spaceRunes, List.mem_cons, List.mem_singleton, List.not_mem_nil, or_false] at hr
  rcases hr with h|h|h|h|h|h|h|h|h|h|h|h|h|h|h|h|h|h|h|h|h|h|h|h|h <;> subst h <;>
    simp [encodeRune, List.find?, List.isPrefixOf]

/-- A trailing white-space rune is removed. -/
theorem dropTrailingSpaceRev_space (r : Rune) (hr : r ∈ spaceRunes) (s : GoString) :
    dropTrailingSpaceRev ((encodeRune r).reverse ++ s) = some s := by
  unfold dropTrailingSpaceRev
  rw [spaceEncodings_eq]
  simp only [spaceRunes, List.mem_cons, List.mem_singleton, List.not_mem_nil, or_false] at hr
  rcases hr with h|h|h|h|h|h|h|h|h|h|h|h|h|h|h|h|h|h|h|h|h|h|h|h|h <;> subst h <;>
    simp [encodeRune, List.find?, List.isPrefixOf]

/-- A printable ASCII byte starts no white-space rune. -/
theorem dropLeadingSpace_none (b : Nat) (s : GoString) (h1 : 32 < b) (h2 : b < 128) :
    dropLeadingSpace (b :: s) = none := by
  unfold dropLeadingSpace
  rw [spaceEncodings_eq, Option.map_eq_none', List.find?_eq_none]
  intro e he
  simp only [List.mem_cons, List.mem_singleton, List.not_mem_nil, or_false] at he
  rcases he with h|h|h|h|h|h|h|h|h|h|h|h|h|h|h|h|h|h|h|h|h|h|h|h|h <;> subst h <;>
    simp [List.isPrefixOf] <;> omega

/-- A printable ASCII byte ends no white-space rune. -/
theorem dropTrailingSpaceRev_none (b : Nat) (s : GoString) (h1 : 32 < b) (h2 : b < 128) :
    dropTrailingSpaceRev (b :: s) = none := by
  unfold dropTrailingSpaceRev
  rw [spaceEncodings_eq, Option.map_eq_none', List.find?_eq_none]
  intro e he
  simp only [List.mem_cons, List.mem_singleton, List.not_mem_nil, or_false] at he
  rcases he with h|h|h|h|h|h|h|h|h|h|h|h|h|h|h|h|h|h|h|h|h|h|h|h|h <;> subst h <;>
    simp [List.isPrefixOf] <;> omega

/-- Every rune is encoded by at least one byte. -/
theorem encodeRune_length_pos (r : Rune) : 1 ≤ (encodeRune r).length := by
  unfold encodeRune
  split_ifs <;> simp

/-- The string of a rune followed by others. -/
theorem runesToString_cons (r : Rune) (rs : List Rune) :
    runesToString (r :: rs) = encodeRune r ++ runesToString rs := rfl

/-- The string of two rune sequences, one after the other. -/
theorem runesToString_append (a b : List Rune) :
    runesToString (a ++ b) = runesToString a ++ runesToString b := by
  induction a with
  | nil => rfl
  | cons r a ih => rw [List.cons_append, runesToString_cons, runesToString_cons, ih,
      List.append_assoc]

/-- A string has at least as many bytes as runes. -/
theorem runesToString_length (rs : List Rune) : rs.length ≤ (runesToString rs).length := by
  induction rs with
  | nil => simp
  | cons r rs ih =>
    rw [runesToString_cons, List.length_append, List.length_cons]
    have := encodeRune_length_pos r
    omega

/-- Nothing is removed from a string that starts with no white-space rune. -/
theorem trimLeftN_of_none (n : Nat) (s : GoString) (h : dropLeadingSpace s = none) :
    trimLeftN n s = s := by
  cases n with
  | zero => rfl
  | succ n => simp only [trimLeftN, h]

/-- Nothing is removed from a string that ends with no white-space rune. -/
theorem trimRightRevN_of_none (n : Nat) (s : GoString) (h : dropTrailingSpaceRev s = none) :
    trimRightRevN n s = s := by
  cases n with
  | zero => rfl
  | succ n => simp only [trimRightRevN, h]

/-- Leading white-space runes are all removed. -/
theorem trimLeftN_spaces (ls : List Rune) (hls : ∀ r ∈ ls, r ∈ spaceRunes) (n : Nat)
    (s : GoString) (hn : ls.length ≤ n) (hs : dropLeadingSpace s = none) :
    trimLeftN n (runesToString ls ++ s) = s := by
  induction ls generalizing n with
  | nil => exact trimLeftN_of_none n s hs
  | cons r ls ih =>
    cases n with
    | zero => simp at hn
    | succ n =>
      rw [runesToString_cons, List.append_assoc]
      simp only [trimLeftN, dropLeadingSpace_space r (hls r (List.mem_cons_self r ls))]
      exact ih (fun x hx => hls x (List.mem_cons_of_mem r hx)) n
        (by simpa using hn)

/-- Trailing white-space runes are all removed. -/
theorem trimRightRevN_spaces (rs : List Rune) (hrs : ∀ r ∈ rs, r ∈ spaceRunes) (n : Nat)
    (s : GoString) (hn : rs.length ≤ n) (hs : dropTrailingSpaceRev s = none) :
    trimRightRevN n ((runesToString rs).reverse ++ s) = s := by
  induction rs using List.reverseRecOn generalizing n with
  | nil => exact trimRightRevN_of_none n s hs
  | append_singleton rs r ih =>
    cases n with
    | zero => simp at hn
    | succ n =>
      rw [runesToString_append, List.reverse_append, List.append_assoc]
      have e : runesToString [r] = encodeRune r := by simp [runesToString]
      rw [e]
      simp only [trimRightRevN, dropTrailingSpaceRev_space r (hrs r (by simp))]
      exact ih (fun x hx => hrs x (by simp [hx])) n (by simpa using hn)

/-- Trimming a text surrounded by white space gives the text back, when the
text neither starts nor ends with a white-space rune. -/
theorem TrimSpace_surrounded (ls rs : List Rune) (core : GoString)
    (hls : ∀ r ∈ ls, r ∈ spaceRunes) (hrs : ∀ r ∈ rs, r ∈ spaceRunes)
    (hl : ∀ x, dropLeadingSpace (core ++ x) = none)
    (hr : ∀ x, dropTrailingSpaceRev (core.reverse ++ x) = none) :
    TrimSpace (runesToString ls ++ core ++ runesToString rs) = core := by
  unfold TrimSpace
  have h1 : trimLeftN (runesToString ls ++ core ++ runesToString rs).length
      (runesToString ls ++ core ++ runesToString rs) = core ++ runesToString rs := by
    rw [List.append_assoc]
    apply trimLeftN_spaces ls hls _ _ _ (hl _)
    have := runesToString_length ls
    simp only [List.length_append]
    omega
  simp only [h1]
  rw [List.reverse_append]
  rw [show (runesToString rs).reverse ++ core.reverse
      = (runesToString rs).reverse ++ (core.reverse ++ []) by simp]
  rw [trimRightRevN_spaces rs hrs _ _ _ (hr _)]
  · simp
  · have := runesToString_length rs
    simp only [List.length_append]
    omega
/-- Trimming a line of white space only gives the empty string. -/
theorem TrimSpace_all_space (ls : List Rune) (hls : ∀ r ∈ ls, r ∈ spaceRunes) :
    TrimSpace (runesToString ls) = [] := by
  unfold TrimSpace
  have h0 : dropLeadingSpace [] = none := by decide
  have h1 : trimLeftN (runesToString ls).length (runesToString ls) = [] := by
    have h := trimLeftN_spaces ls hls (runesToString ls).length [] (runesToString_length ls) h0
    rwa [List.append_nil] at h
  simp only [h1]
  rfl

/-- The only way `initConnect` panics: the answer is a map whose `data` is an
array of one element that is not a map. -/
theorem initConnect_none_iff (client : Client) (st : Startup) :
    initConnect client st = none ↔
      ∃ v x, client (str "show time_precision") 10 = .ok (.map v) ∧
        Value.index v (str "data") = .slice [x] ∧ ∀ e, x ≠ .map e := by
  unfold initConnect
  cases hq : client (str "show time_precision") 10 with
  | error err => simp
  | ok res =>
    cases res with
    | map v =>
      cases hd : Value.index v (str "data") with
      | slice arr =>
        rcases arr with _ | ⟨x, _ | ⟨y, arr⟩⟩
        · simp [hd]
        · cases x with
          | map e =>
            cases he : Value.index e (str "value") <;> simp [hd, he]
          | nil => simp [hd]
          | string s => simp [hd]
          | slice xs => simp [hd]
          | other k => simp [hd]
        · simp [hd]
      | nil => simp [hd]
      | string s => simp [hd]
      | map e => simp [hd]
      | other k => simp [hd]
    | nil => simp
    | string s => simp
    | slice xs => simp
    | other k => simp

/-! ## The claims -/

/-- C1. `sendCommand` returns the terminate signal 1 exactly when the trimmed
editor text is the string `exit`; when it returns 1 the console is left as it
was: no query is recorded as created or sent, and history, output view and
editor are unchanged. Otherwise it returns 0 and records one query. -/
theorem sendCommand_exit_iff (m : Methods H V Q W) (st : Console H V W) :
    ((sendCommand m st).1 = 1 ↔ TrimSpace (runesToString st.outPrompt.text) = str "exit") ∧
    ((sendCommand m st).1 = 1 → (sendCommand m st).2 = st) ∧
    ((sendCommand m st).1 ≠ 1 → (sendCommand m st).1 = 0 ∧
      (sendCommand m st).2.queries
        = st.queries ++ [TrimSpace (runesToString st.outPrompt.text)]) := by
  by_cases h : TrimSpace (runesToString st.outPrompt.text) = str "exit"
  · have e : sendCommand m st = (1, st) := by
      unfold sendCommand
      simp only [h, if_true]
    rw [e]
    simp [h]
  · have e1 : (sendCommand m st).1 = 0 := by
      unfold sendCommand
      simp only [h, if_false]
    have e2 : (sendCommand m st).2.queries
        = st.queries ++ [TrimSpace (runesToString st.outPrompt.text)] := by
      unfold sendCommand
      simp only [h, if_false]
    rw [e1]
    simp [h, e2]

/-- C1 at the editor text `"  exit "`: the signal is 1 and the console is unchanged. -/
theorem sendCommand_exit_iff_witness :
    (sendCommand plainMethods (consoleOf "  exit ")).1 = 1 ∧
    (sendCommand plainMethods (consoleOf "  exit ")).2 = consoleOf "  exit " :=
  ⟨(sendCommand_exit_iff plainMethods (consoleOf "  exit ")).1.2 (by decide),
   (sendCommand_exit_iff plainMethods (consoleOf "  exit ")).2.1
     ((sendCommand_exit_iff plainMethods (consoleOf "  exit ")).1.2 (by decide))⟩

/-- C7. When the grammar's parse returns an error, `getCompletions` returns
normally with no candidates, appends exactly one line to the log, the parse
error, and hands no path to the filesystem. -/
theorem getCompletions_parse_error (g : Grammar) (fs : Filesystem) (logger : List GoString)
    (p : prompt) (err : GoString) (hparse : g p.textBeforeCursor = .error err) :
    getCompletions g fs logger p = some
      { completions := [],
        logger := logger ++ [str "goleri parse error: " ++ err],
        readDir := [] } := by
  simp only [getCompletions, hparse]

/-- C7 on a failing grammar with the line ` exi `. -/
theorem getCompletions_parse_error_witness :
    getCompletions failingGrammar smallTree [str "connected"] (promptOf " exi ") = some
      { completions := [],
        logger := [str "connected", str "goleri parse error: " ++ str "unexpected end of input"],
        readDir := [] } :=
  getCompletions_parse_error failingGrammar smallTree [str "connected"] (promptOf " exi ")
    (str "unexpected end of input") rfl

/-- C2 as stated fails on the empty line: the trimmed line is empty, not of
length at least 1, and the exit candidate is offered all the same. -/
theorem exit_offered_on_empty_line :
    TrimSpace (promptOf "").textBeforeCursor = [] ∧
    ∃ out, getCompletions startGrammar smallTree [] (promptOf "") = some out ∧
      ({ text := str "exit", display := str "exit", startPos := 0 } : completion)
        ∈ out.completions :=
  ⟨by decide, _, rfl, by decide⟩

/-- C2, amended. When the parse succeeds (at a position within the line, as a
position of the parser is), `getCompletions` returns a candidate
with text `exit` and display `exit` exactly when the trimmed line is a strict
prefix of `exit`, the empty line included (one of the empty string, `e`, `ex`,
`exi`), and every candidate with text `exit` has display `exit` and a
`startPos` equal to the length of the trimmed line; in particular the exit
candidate is offered, at position 0, on an empty or all-white-space line. -/
theorem exit_candidate_iff (g : Grammar) (fs : Filesystem) (logger : List GoString)
    (p : prompt) (res : Result) (hparse : g p.textBeforeCursor = .ok res)
    (hpos : res.Pos ≤ p.textBeforeCursor.length) :
    ∃ out, getCompletions g fs logger p = some out ∧
      ((∃ c ∈ out.completions, c.text = str "exit" ∧ c.display = str "exit") ↔
        (TrimSpace p.textBeforeCursor = [] ∨ TrimSpace p.textBeforeCursor = str "e" ∨
          TrimSpace p.textBeforeCursor = str "ex" ∨ TrimSpace p.textBeforeCursor = str "exi")) ∧
      (∀ c ∈ out.completions, c.text = str "exit" →
        c.display = str "exit" ∧ c.startPos = (TrimSpace p.textBeforeCursor).length) ∧
      ((∀ r ∈ p.text.take p.cursor, r ∈ spaceRunes) →
        ({ text := str "exit", display := str "exit", startPos := 0 } : completion)
          ∈ out.completions) := by
  refine ⟨_, getCompletions_ok g fs logger p res hparse hpos, ?_, ?_, ?_⟩
  · simp only [List.mem_append]
    constructor
    · rintro ⟨c, (⟨hc | hc⟩ | hc), ht, _⟩
      · rw [exitRule_eq] at hc
        by_contra hn
        rw [if_neg hn] at hc
        simp at hc
      · obtain ⟨w, hw⟩ := importRule_text _ _ _ c hc
        exact absurd (hw ▸ ht) (append_space_ne_exit w)
      · obtain ⟨w, _, _, hw⟩ := (mem_foldl_offerKeyword _ _ _ _ c).mp hc
        rw [hw] at ht
        exact absurd ht (append_space_ne_exit w)
    · intro h
      refine ⟨{ text := str "exit", display := str "exit",
                startPos := (TrimSpace p.textBeforeCursor).length }, ?_, rfl, rfl⟩
      left
      left
      rw [exitRule_eq, if_pos h]
      simp
  · intro c hc ht
    simp only [List.mem_append] at hc
    rcases hc with (⟨hc | hc⟩ | hc)
    · rw [exitRule_eq] at hc
      split at hc
      · simp only [List.mem_singleton] at hc
        subst hc
        exact ⟨rfl, rfl⟩
      · simp at hc
    · obtain ⟨w, hw⟩ := importRule_text _ _ _ c hc
      exact absurd (hw ▸ ht) (append_space_ne_exit w)
    · obtain ⟨w, _, _, hw⟩ := (mem_foldl_offerKeyword _ _ _ _ c).mp hc
      rw [hw] at ht
      exact absurd ht (append_space_ne_exit w)
  · intro hsp
    have ht : TrimSpace p.textBeforeCursor = [] := TrimSpace_all_space _ hsp
    simp only [List.mem_append]
    left
    left
    rw [exitRule_eq, if_pos (Or.inl ht), ht]
    simp

/-- C2, amended, on the line ` ex`: the exit candidate is there, at position 2. -/
theorem exit_candidate_iff_witness :
    ∃ out, getCompletions startGrammar smallTree [] (promptOf " ex") = some out ∧
      ((∃ c ∈ out.completions, c.text = str "exit" ∧ c.display = str "exit") ↔
        (TrimSpace (promptOf " ex").textBeforeCursor = [] ∨
          TrimSpace (promptOf " ex").textBeforeCursor = str "e" ∨
          TrimSpace (promptOf " ex").textBeforeCursor = str "ex" ∨
          TrimSpace (promptOf " ex").textBeforeCursor = str "exi")) ∧
      (∀ c ∈ out.completions, c.text = str "exit" →
        c.display = str "exit" ∧
          c.startPos = (TrimSpace (promptOf " ex").textBeforeCursor).length) ∧
      ((∀ r ∈ (promptOf " ex").text.take (promptOf " ex").cursor, r ∈ spaceRunes) →
        ({ text := str "exit", display := str "exit", startPos := 0 } : completion)
          ∈ out.completions) :=
  exit_candidate_iff startGrammar smallTree [] (promptOf " ex")
    { Pos := 0,
      GetExpecting := [.Keyword (str "select"), .Keyword (str "list"), .Other 0,
                       .Keyword (str "show"), .Keyword (str "timeit")] }
    rfl (by decide)

/-- C6. With the text `exi` before the cursor, a successful parse (at a
position within the line) and no keyword among the expected elements, `getCompletions` returns exactly the one
candidate `exit`/`exit` at position 3; and for every line that is `e`, `ex`
or `exi` with any white space before and after it (equivalently, whose
trimmed text is one of the three) it returns exactly the exit candidate, at
the length of the trimmed text, logs nothing and lists no directory. -/
theorem exit_only_candidate (g : Grammar) (fs : Filesystem) (logger : List GoString)
    (p : prompt) (res : Result) (hparse : g p.textBeforeCursor = .ok res)
    (hpos : res.Pos ≤ p.textBeforeCursor.length)
    (hnone : ∀ word, Element.Keyword word ∉ res.GetExpecting) :
    (p.textBeforeCursor = str "exi" →
      getCompletions g fs logger p = some
        { completions := [{ text := str "exit", display := str "exit", startPos := 3 }],
          logger := logger, readDir := [] }) ∧
    (∀ ls rs core, (∀ r ∈ ls, r ∈ spaceRunes) → (∀ r ∈ rs, r ∈ spaceRunes) →
      (core = str "e" ∨ core = str "ex" ∨ core = str "exi") →
      p.textBeforeCursor = runesToString ls ++ core ++ runesToString rs →
      getCompletions g fs logger p = some
        { completions := [{ text := str "exit", display := str "exit",
                            startPos := core.length }],
          logger := logger, readDir := [] }) ∧
    ((TrimSpace p.textBeforeCursor = str "e" ∨ TrimSpace p.textBeforeCursor = str "ex" ∨
        TrimSpace p.textBeforeCursor = str "exi") →
      getCompletions g fs logger p = some
        { completions := [{ text := str "exit", display := str "exit",
                            startPos := (TrimSpace p.textBeforeCursor).length }],
          logger := logger, readDir := [] }) := by
  have general : (TrimSpace p.textBeforeCursor = str "e" ∨
      TrimSpace p.textBeforeCursor = str "ex" ∨ TrimSpace p.textBeforeCursor = str "exi") →
      getCompletions g fs logger p = some
        { completions := [{ text := str "exit", display := str "exit",
                            startPos := (TrimSpace p.textBeforeCursor).length }],
          logger := logger, readDir := [] } := by
    intro h
    rw [getCompletions_ok g fs logger p res hparse hpos,
      foldl_offerKeyword_no_keyword _ _ _ _ hnone, exitRule_eq,
      if_pos (Or.inr h)]
    have himp : importRule fs (TrimSpace p.textBeforeCursor)
        (p.textBeforeCursor.drop res.Pos) = ([], []) := by
      have hp : ¬ HasPrefix (str "import ") (TrimSpace p.textBeforeCursor) = true := by
        rcases h with h | h | h <;> rw [h] <;> decide
      unfold importRule
      rw [if_neg hp]
    rw [himp]
    rfl
  refine ⟨?_, ?_, general⟩
  · intro hq
    have ht : TrimSpace p.textBeforeCursor = str "exi" := by
      rw [hq]
      decide
    have h3 := general (Or.inr (Or.inr ht))
    rw [ht] at h3
    exact h3
  · intro ls rs core hls hrs hcore hq
    have ht : TrimSpace p.textBeforeCursor = core := by
      rw [hq]
      apply TrimSpace_surrounded ls rs core hls hrs
      · intro x
        rcases hcore with h | h | h <;> subst h <;>
          exact dropLeadingSpace_none 101 _ (by decide) (by decide)
      · intro x
        rcases hcore with h | h | h <;> subst h
        · exact dropTrailingSpaceRev_none 101 _ (by decide) (by decide)
        · exact dropTrailingSpaceRev_none 120 _ (by decide) (by decide)
        · exact dropTrailingSpaceRev_none 105 _ (by decide) (by decide)
    have h3 := general (by rw [ht]; exact hcore)
    rw [ht] at h3
    exact h3

/-- C6 on the line `exi` and on the line `  ex ` surrounded by white space. -/
theorem exit_only_candidate_witness :
    getCompletions noKeywordGrammar smallTree [] (promptOf "exi") = some
      { completions := [{ text := str "exit", display := str "exit", startPos := 3 }],
        logger := [], readDir := [] } ∧
    getCompletions noKeywordGrammar smallTree [] (promptOf "  ex ") = some
      { completions := [{ text := str "exit", display := str "exit",
                          startPos := (str "ex").length }],
        logger := [], readDir := [] } :=
  ⟨(exit_only_candidate noKeywordGrammar smallTree [] (promptOf "exi")
      { Pos := 0, GetExpecting := [.Other 1, .Other 2] } rfl (by decide) (by simp)).1
      (by decide),
   (exit_only_candidate noKeywordGrammar smallTree [] (promptOf "  ex ")
      { Pos := 0, GetExpecting := [.Other 1, .Other 2] } rfl (by decide) (by simp)).2.1
      [32, 32] [32] (str "ex") (by decide) (by decide) (by decide) (by decide)⟩

/-- C3: on the line `import data` the directory `data`, which exists and has
an entry, is not listed: `ReadDir` is not called at all and no candidate is
offered, where the claim has `ReadDir` called on `data` and `a.csv` offered. -/
theorem import_path_not_listed :
    smallTree (str "data") = .ok [str "a.csv"] ∧
    getCompletions startGrammar smallTree [] (promptOf "import data") = some
      { completions := [], logger := [], readDir := [] } :=
  ⟨rfl, by decide⟩

/-- C4 as stated fails in both directions. On the line `list` parsed to its
end the remainder is empty, so the expected keyword `series` starts with it,
the line is neither empty nor ends in a space, and no candidate is offered.
On the line `import` parsed to position 0 in a directory with an entry named
`show`, the candidate of the expected keyword `show` is returned, by the rule
for `import`, although the text is not empty and `show` does not start with
the remainder `import`. -/
theorem keyword_not_offered_on_empty_rest :
    (listGrammar (promptOf "list").textBeforeCursor = .ok
        { Pos := 4, GetExpecting := [.Keyword (str "series"), .Keyword (str "servers")] } ∧
      (promptOf "list").textBeforeCursor.drop 4 = [] ∧
      HasPrefix (str "series") ((promptOf "list").textBeforeCursor.drop 4) = true ∧
      getCompletions listGrammar smallTree [] (promptOf "list") = some
        { completions := [], logger := [], readDir := [] }) ∧
    (Element.Keyword (str "show") ∈
        [Element.Keyword (str "select"), .Keyword (str "list"), .Other 0,
         .Keyword (str "show"), .Keyword (str "timeit")] ∧
      (promptOf "import").textBeforeCursor.drop 0 = str "import" ∧
      HasPrefix (str "show") (str "import") = false ∧
      getCompletions startGrammar showTree [] (promptOf "import") = some
        { completions := [{ text := str "show" ++ str " ", display := str "show",
                            startPos := (str "import").length }],
          logger := [], readDir := [str "."] }) :=
  ⟨⟨rfl, by decide, by decide, by decide⟩, ⟨by decide, by decide, by decide, by decide⟩⟩

/-- C4, amended. When the parse succeeds at a position `pos` within the line with remainder
`rest = q[pos:]`, the candidates that `getCompletions` returns for the
expected elements (those it returns after the ones it returns for an empty
list of expected elements) are exactly the candidates
`{text: kw + " ", display: kw, startPos: len(rest)}` of the expected keyword
literals `kw` for which the editor text is empty, or `rest` is empty and the
line ends in a space, or `rest` is not empty and `kw` starts with `rest`;
elements that are not keyword literals produce none. -/
theorem keyword_candidates_iff (g : Grammar) (fs : Filesystem) (logger : List GoString)
    (p : prompt) (res : Result) (hparse : g p.textBeforeCursor = .ok res)
    (hpos : res.Pos ≤ p.textBeforeCursor.length) :
    ∃ out base kws, getCompletions g fs logger p = some out ∧
      getCompletions (fun _ => .ok { res with GetExpecting := [] }) fs logger p = some base ∧
      out.completions = base.completions ++ kws ∧
      ∀ c, c ∈ kws ↔ ∃ kw, Element.Keyword kw ∈ res.GetExpecting ∧
        c = { text := kw ++ str " ", display := kw,
              startPos := p.textBeforeCursor.length - res.Pos } ∧
        (p.text = [] ∨
          (p.textBeforeCursor.drop res.Pos = [] ∧ p.textBeforeCursor.getLast? = some 32) ∨
          (p.textBeforeCursor.drop res.Pos ≠ [] ∧ p.textBeforeCursor.drop res.Pos <+: kw)) := by
  refine ⟨_, _,
    res.GetExpecting.foldl (offerKeyword p p.textBeforeCursor (p.textBeforeCursor.drop res.Pos)) [],
    getCompletions_ok g fs logger p res hparse hpos,
    getCompletions_ok _ fs logger p { res with GetExpecting := [] } rfl hpos, ?_, ?_⟩
  · simp
  · intro c
    rw [mem_foldl_offerKeyword]
    have hlen : (p.textBeforeCursor.drop res.Pos).length = p.textBeforeCursor.length - res.Pos :=
      List.length_drop _ _
    have hoff : ∀ kw, offered p p.textBeforeCursor (p.textBeforeCursor.drop res.Pos) kw = true ↔
        (p.text = [] ∨
          (p.textBeforeCursor.drop res.Pos = [] ∧ p.textBeforeCursor.getLast? = some 32) ∨
          (p.textBeforeCursor.drop res.Pos ≠ [] ∧ p.textBeforeCursor.drop res.Pos <+: kw)) := by
      intro kw
      unfold offered HasPrefix
      simp only [Bool.or_eq_true, Bool.and_eq_true, beq_iff_eq, decide_eq_true_eq,
        List.length_eq_zero, List.isPrefixOf_iff_prefix, List.length_pos]
      constructor
      · rintro ((h | ⟨⟨h1, _⟩, h3⟩) | ⟨h1, h2⟩)
        · exact Or.inl h
        · exact Or.inr (Or.inl ⟨h1, h3⟩)
        · exact Or.inr (Or.inr ⟨h1, h2⟩)
      · rintro (h | ⟨h1, h3⟩ | ⟨h1, h2⟩)
        · exact Or.inl (Or.inl h)
        · refine Or.inl (Or.inr ⟨⟨h1, ?_⟩, h3⟩)
          intro hq
          rw [hq] at h3
          simp at h3
        · exact Or.inr ⟨h1, h2⟩
    constructor
    · rintro ⟨kw, hm, ho, hc⟩
      exact ⟨kw, hm, by rw [hc, hlen], (hoff kw).mp ho⟩
    · rintro ⟨kw, hm, hc, ho⟩
      exact ⟨kw, hm, (hoff kw).mpr ho, by rw [hc, hlen]⟩

/-- C4, amended, on the line `list se` parsed up to position 5. -/
theorem keyword_candidates_iff_witness :
    ∃ out base kws, getCompletions listPrefixGrammar smallTree [] (promptOf "list se") = some out ∧
      getCompletions (fun _ => .ok { Pos := 5, GetExpecting := [] }) smallTree []
        (promptOf "list se") = some base ∧
      out.completions = base.completions ++ kws ∧
      ∀ c, c ∈ kws ↔ ∃ kw, Element.Keyword kw ∈
          [Element.Keyword (str "series"), Element.Other 3, Element.Keyword (str "servers")] ∧
        c = { text := kw ++ str " ", display := kw,
              startPos := (promptOf "list se").textBeforeCursor.length - 5 } ∧
        ((promptOf "list se").text = [] ∨
          ((promptOf "list se").textBeforeCursor.drop 5 = [] ∧
            (promptOf "list se").textBeforeCursor.getLast? = some 32) ∨
          ((promptOf "list se").textBeforeCursor.drop 5 ≠ [] ∧
            (promptOf "list se").textBeforeCursor.drop 5 <+: kw)) :=
  keyword_candidates_iff listPrefixGrammar smallTree [] (promptOf "list se")
    { Pos := 5,
      GetExpecting := [.Keyword (str "series"), .Other 3, .Keyword (str "servers")] }
    rfl (by decide)

/-- C5 as stated fails on the line `imp ` parsed to position 0: the import
rule produces the candidate `import `, whose `startPos` is 3, the length of
the trimmed line, and not `len(q) - pos`, which is 4. -/
theorem bare_import_at_trimmed_length :
    (promptOf "imp ").textBeforeCursor.length - 0 = 4 ∧
    (TrimSpace (promptOf "imp ").textBeforeCursor).length = 3 ∧
    getCompletions startGrammar smallTree [] (promptOf "imp ") = some
      { completions := [{ text := str "import ", display := str "import", startPos := 3 }],
        logger := [], readDir := [] } :=
  ⟨by decide, by decide, by decide⟩

/-- C5, amended. When the parse succeeds at a position `pos` within the line: if the import rule
lists a directory whose listing the filesystem returns, `getCompletions`
returns one candidate per entry, in the order of the listing, ahead of what
it returns for an empty directory, and for the entry `n` the text is `n`
followed by one space, the display is `n`, and `startPos` is `len(q) - pos`;
if the trimmed line is a prefix of `import ` shorter than 6 bytes, no
directory is listed and the candidate `import ` with display `import` is
offered at the length of the trimmed line. -/
theorem import_candidates (g : Grammar) (fs : Filesystem) (logger : List GoString)
    (p : prompt) (res : Result) (dir : GoString) (files : List GoString)
    (hparse : g p.textBeforeCursor = .ok res)
    (hpos : res.Pos ≤ p.textBeforeCursor.length) :
    ((getCompletions g fs logger p).map Completing.readDir = some [dir] →
      fs dir = .ok files →
      ∃ base, getCompletions g (fun _ => .ok []) logger p = some base ∧
        (getCompletions g fs logger p).map Completing.completions = some
          (files.map (fun n => { text := n ++ str " ", display := n,
                                 startPos := p.textBeforeCursor.length - res.Pos })
            ++ base.completions)) ∧
    (HasPrefix (str "import ") (TrimSpace p.textBeforeCursor) = true →
      (TrimSpace p.textBeforeCursor).length < 6 →
      ∃ out, getCompletions g fs logger p = some out ∧ out.readDir = [] ∧
        ({ text := str "import ", display := str "import",
           startPos := (TrimSpace p.textBeforeCursor).length } : completion)
          ∈ out.completions) := by
  constructor
  · intro hcall hfiles
    obtain ⟨h1, h2, hdir⟩ := listing_of_readDir g fs logger p res dir hparse hpos hcall
    subst hdir
    refine ⟨_, getCompletions_ok g _ logger p res hparse hpos, ?_⟩
    rw [getCompletions_ok g fs logger p res hparse hpos]
    simp only [importRule_listing _ _ _ h1 h2, hfiles, exitRule_long _ h2, List.length_drop,
      List.map_nil, List.nil_append, List.append_nil, Option.map_some']
  · intro h1 h2
    refine ⟨_, getCompletions_ok g fs logger p res hparse hpos, ?_⟩
    have key : importRule fs (TrimSpace p.textBeforeCursor) (p.textBeforeCursor.drop res.Pos) =
        ([{ text := str "import ", display := str "import",
            startPos := (TrimSpace p.textBeforeCursor).length }], []) := by
      unfold importRule
      rw [if_pos h1, if_neg (by omega)]
    simp only [key, List.mem_append, List.mem_singleton, or_true, true_or, and_self]

/-- C5, amended, on the line `import ` with the working directory holding two
entries: both are offered in listing order, each with `startPos` 7 - 0. -/
theorem import_candidates_witness :
    ∃ base, getCompletions startGrammar (fun _ => .ok []) [] (promptOf "import ") = some base ∧
      (getCompletions startGrammar smallTree [] (promptOf "import ")).map Completing.completions
        = some ([str "data", str "notes.txt"].map (fun n =>
            { text := n ++ str " ", display := n,
              startPos := (promptOf "import ").textBeforeCursor.length - 0 })
          ++ base.completions) :=
  (import_candidates startGrammar smallTree [] (promptOf "import ")
    { Pos := 0,
      GetExpecting := [.Keyword (str "select"), .Keyword (str "list"), .Other 0,
                       .Keyword (str "show"), .Keyword (str "timeit")] }
    (str ".") [str "data", str "notes.txt"] rfl (by decide)).1 (by decide) rfl

/-- C8 as stated fails on the line `import` when the working directory cannot
be read: `ReadDir` is called and returns an error, and no line is appended to
the log. -/
theorem unreadable_directory_not_logged :
    unreadable (str ".") = .error (str "permission denied") ∧
    getCompletions startGrammar unreadable [] (promptOf "import") = some
      { completions := [], logger := [], readDir := [str "."] } :=
  ⟨rfl, by decide⟩

/-- C8, amended. When the parse succeeds at a position within the line, the
directory listing of the import rule is triggered and `ReadDir` returns an
error, `getCompletions` appends nothing to the log and returns what it
returns for an empty directory: no candidate of the import rule, and the
candidates of the expected keywords. -/
theorem unreadable_directory (g : Grammar) (fs : Filesystem) (logger : List GoString)
    (p : prompt) (res : Result) (dir err : GoString)
    (hparse : g p.textBeforeCursor = .ok res)
    (hpos : res.Pos ≤ p.textBeforeCursor.length)
    (hcall : (getCompletions g fs logger p).map Completing.readDir = some [dir])
    (herr : fs dir = .error err) :
    ∃ out base, getCompletions g fs logger p = some out ∧
      getCompletions g (fun _ => .ok []) logger p = some base ∧
      out.logger = logger ∧
      out.completions = base.completions ∧
      out.completions = res.GetExpecting.foldl
        (offerKeyword p p.textBeforeCursor (p.textBeforeCursor.drop res.Pos)) [] := by
  obtain ⟨h1, h2, hdir⟩ := listing_of_readDir g fs logger p res dir hparse hpos hcall
  subst hdir
  refine ⟨_, _, getCompletions_ok g fs logger p res hparse hpos,
    getCompletions_ok g _ logger p res hparse hpos, rfl, ?_, ?_⟩ <;>
  simp only [importRule_listing _ _ _ h1 h2, herr, exitRule_long _ h2,
    List.map_nil, List.nil_append, List.append_nil]

/-- C8, amended, on the line `import` parsed up to position 5 with an
unreadable working directory: nothing is logged and the expected keyword
`timeit`, which starts with the remainder `t`, is still offered. -/
theorem unreadable_directory_witness :
    ∃ out base,
      getCompletions (fun _ => .ok { Pos := 5, GetExpecting := [.Keyword (str "timeit")] })
        unreadable [] (promptOf "import") = some out ∧
      getCompletions (fun _ => .ok { Pos := 5, GetExpecting := [.Keyword (str "timeit")] })
        (fun _ => .ok []) [] (promptOf "import") = some base ∧
      out.logger = [] ∧
      out.completions = base.completions ∧
      out.completions = [Element.Keyword (str "timeit")].foldl
        (offerKeyword (promptOf "import") (promptOf "import").textBeforeCursor
          ((promptOf "import").textBeforeCursor.drop 5)) [] :=
  unreadable_directory (fun _ => .ok { Pos := 5, GetExpecting := [.Keyword (str "timeit")] })
    unreadable [] (promptOf "import") { Pos := 5, GetExpecting := [.Keyword (str "timeit")] }
    (str ".") (str "permission denied") rfl (by decide) (by decide) rfl

/-- C9. In the output view, on Arrow-Up or Arrow-Down: with a non-empty list
of candidates the event is handed to the editor and the history is left as it
was (no recall, the editor is what its own `parse` makes of the event); with
an empty list the history moves by `prev()` (Arrow-Up) or `next()`
(Arrow-Down), the editor text becomes the text that `setText` sets for the
recalled line, and the list of candidates is empty afterwards. The loop goes
on in both cases. -/
theorem arrow_keys (m : Methods H V Q W) (ev : Event) (st : Console H V W)
    (hview : st.currentView = cViewOutput)
    (hkey : ev.Key = Key.ArrowUp ∨ ev.Key = Key.ArrowDown) :
    (st.outPrompt.hasCompletions = true →
      keyEvent m ev st =
        ({ st with outPrompt := (m.promptParse st.outPrompt ev st.world).1,
                   world := (m.promptParse st.outPrompt ev st.world).2 }, false) ∧
      (keyEvent m ev st).1.his = st.his) ∧
    (st.outPrompt.hasCompletions = false →
      (keyEvent m ev st).1.his
        = (if ev.Key = Key.ArrowUp then m.prev st.his else m.next st.his).2 ∧
      (keyEvent m ev st).1.outPrompt.text
        = (m.setText st.outPrompt
            (if ev.Key = Key.ArrowUp then m.prev st.his else m.next st.his).1 st.world).1.text ∧
      (keyEvent m ev st).1.outPrompt.hasCompletions = false ∧
      (keyEvent m ev st).2 = false) := by
  have hne : ¬ cViewOutput = cViewLog := by decide
  rcases hkey with hk | hk
  · constructor
    · intro hc
      simp [keyEvent, hne, hview, hk, hc]
    · intro hc
      have hc2 : st.outPrompt.completions = [] := by
        simpa [prompt.hasCompletions] using hc
      simp [keyEvent, hne, hview, hk, hc2, prompt.clearCompletions, prompt.hasCompletions]
  · constructor
    · intro hc
      simp [keyEvent, hne, hview, hk, hc]
    · intro hc
      have hc2 : st.outPrompt.completions = [] := by
        simpa [prompt.hasCompletions] using hc
      simp [keyEvent, hne, hview, hk, hc2, prompt.clearCompletions, prompt.hasCompletions]

/-- C9 on Arrow-Up, once with two candidates shown (the history keeps its
cursor) and once with none (the last line of the history, `show`, is recalled
and no candidates are left). -/
theorem arrow_keys_witness :
    (keyEvent plainMethods { Key := Key.ArrowUp, Ch := 0 } consoleCompleting).1.his
      = consoleCompleting.his ∧
    (keyEvent plainMethods { Key := Key.ArrowUp, Ch := 0 } (consoleOf "li")).1.outPrompt.text
      = (promptOf "show").text ∧
    (keyEvent plainMethods { Key := Key.ArrowUp, Ch := 0 }
      (consoleOf "li")).1.outPrompt.hasCompletions = false :=
  ⟨((arrow_keys plainMethods { Key := Key.ArrowUp, Ch := 0 } consoleCompleting rfl
      (Or.inl rfl)).1 (by decide)).2,
   ((arrow_keys plainMethods { Key := Key.ArrowUp, Ch := 0 } (consoleOf "li") rfl
      (Or.inl rfl)).2 (by decide)).2.1.trans (by decide),
   ((arrow_keys plainMethods { Key := Key.ArrowUp, Ch := 0 } (consoleOf "li") rfl
      (Or.inl rfl)).2 (by decide)).2.2.1⟩

/-- C10: when the database answers the startup query with a map whose `data`
is an array holding one string, `initConnect` panics on the unchecked type
assertion of that element, where the claim has it log one
`error reading time_precision` line and return. -/
theorem initConnect_panics :
    initConnect (fun _ _ => .ok (.map [(str "data", .slice [.string (str "ms")])]))
      { logger := [], timePrecision := none } = none := by
  decide

end SiriPrompt
